import Mathlib

/-!
Verification of the autocomplete candidate search of
`src/src/editor/plugins.cpp` (the `ConsolePlugin` of the editor plugin).

The only algorithmic component is `ConsolePlugin::autocompleteSubstep`
(lines 583-623): a recursive walk over the live duktape object graph that,
given the dotted query typed so far, collects the property names completing
it, together with the sorting step of `ConsolePlugin::autocompleteCallback`
(lines 656-667) and the backward word-boundary scans of that callback
(lines 641-647 and 671-677).

The embedding models the duktape namespace as a finite graph of nodes; a
node's properties are an association list in enumeration order (the order
`duk_enum`/`duk_next` yields, symbols and non-enumerable names included).
A property value is either a further node or a scalar; enumerating a scalar
yields no properties (the object coercion of a plain value owns none).
Query strings are lists of characters; the C `char` buffer's bytes map to
the characters of the list, with the terminating NUL represented by the end
of the list.  The source re-fetches a property by its enumerated name
(`duk_get_prop_string`, lines 605 and 615); the embedding descends into the
enumerated pair's value, the same thing whenever names are unique within a
node, as they are for every duktape object.
-/

/-- A property name as the code sees it: the bytes of a C string. -/
abbrev Name := List Char

/-- A value reachable in the scripting namespace: a nested namespace node
(identified by its node id in the graph) carrying properties of its own, or
a scalar carrying none. -/
inductive Value where
  | scalar : Int → Value
  | node : Nat → Value
deriving DecidableEq, Repr

/-- The namespace object graph: each node id maps to its property list in
enumeration order.  A cyclic graph (a property whose value is an ancestor
node, such as `a.self === a`) is representable directly. -/
def Graph := Nat → List (Name × Value)

/-- The properties `duk_enum` (with `DUK_ENUM_INCLUDE_SYMBOLS` and
`DUK_ENUM_INCLUDE_NONENUMERABLE`, line 596) enumerates on a value: a node's
own property list, nothing for a scalar. -/
def valueProps (g : Graph) : Value → List (Name × Value)
  | .scalar _ => []
  | .node id => g id

/-- The loop condition of the segment-copy loop at line 588: copying runs
while the current character is neither `'.'` nor the terminating NUL. -/
def notDot (ch : Char) : Bool := ch != '.'

/-- Lumix `startsWith(name, item)` (line 601): does `name` begin with the
text `item`? -/
def startsWith (name item : Name) : Bool := item.isPrefixOf name

/-- Dropping a matched initial run never lengthens a list; the recursion
measure of `autocompleteSubstep` rests on this. -/
theorem length_dropWhile_le {α : Type} (p : α → Bool) :
    ∀ s : List α, (s.dropWhile p).length ≤ s.length
  | [] => Nat.le_refl _
  | c :: rest => by
    rw [List.dropWhile_cons]
    split
    · exact Nat.le_succ_of_le (length_dropWhile_le p rest)
    · exact Nat.le_refl _

/-- ConsolePlugin::autocompleteSubstep (plugins.cpp lines 583-623).

The loop at lines 588-594 copies `item`, the text of `str` up to the first
`'.'` or the end (`List.takeWhile notDot`), and leaves `next` pointing at
that `'.'` or at the NUL (`List.dropWhile notDot`).  The enumeration loop
(lines 597-621) visits every own property name of the value on the duktape
stack top; for each `name` with `startsWith name item` it either

* recurses into the property's value with the empty string when
  `*next == '.' && next[1] == '\0'` (lines 603-608) — in the embedding
  `next ≠ []` and `next.tail = []`, the head of `next` being `'.'` by
  construction of `dropWhile`;
* pushes `name` as a candidate when `*next == '\0'` (lines 609-612) — here
  `next = []` (the two conditions exclude each other, so testing `next = []`
  first is the same case split as the source's order); or
* recurses into the property's value with `next + 1` (lines 613-618) — the
  embedding's `next.tail`.

Candidates accumulate in enumeration order of the traversal, which
`List.flatMap` reproduces.  The recursion argument is always a strictly
shorter suffix of the query, so the definition is by well-founded recursion
on the length of `str` — no cycle guard on the graph is involved. -/
def autocompleteSubstep (g : Graph) (str : List Char) (v : Value) : List Name :=
  (valueProps g v).flatMap fun p =>
    if startsWith p.1 (str.takeWhile notDot) then
      match hnext : str.dropWhile notDot with
      | [] => [p.1]
      | _ :: rest =>
        if rest = [] then autocompleteSubstep g [] p.2
        else autocompleteSubstep g rest p.2
    else []
termination_by str.length
decreasing_by
  all_goals
    have h1 : (str.dropWhile notDot).length ≤ str.length := length_dropWhile_le notDot str
    rw [hnext] at h1
    simp only [List.length_cons, List.length_nil] at h1 ⊢
    omega

/-- Fuel-indexed restatement of `autocompleteSubstep`, structurally
recursive on the fuel: `none` means the fuel ran out before the traversal
finished.  It makes the recursion depth of the source's function an
observable quantity: `acSubFuel_sufficient` shows fuel beyond the query's
length is never exhausted, on every graph, cyclic ones included. -/
def acSubFuel (g : Graph) : Nat → List Char → Value → Option (List Name)
  | 0, _, _ => none
  | fuel + 1, str, v =>
    let item := str.takeWhile notDot
    let next := str.dropWhile notDot
    (valueProps g v).foldr
      (fun p acc =>
        Option.bind
          (if startsWith p.1 item then
            if next = [] then some [p.1]
            else if next.tail = [] then acSubFuel g fuel [] p.2
            else acSubFuel g fuel next.tail p.2
          else some [])
          fun this => Option.map (fun rest => this ++ rest) acc)
      (some [])

/-- The query suffix just past the first `'.'`, or `none` when the query
has no dot left: the position `next + 1` that the recursive call at line
616 receives (the call at line 606 receives the empty string, which equals
this suffix whenever the dot is the final character). -/
def afterDot : List Char → Option (List Char)
  | [] => none
  | c :: rest => if c = '.' then some rest else afterDot rest

/-- Whatever follows the first dot is shorter than the whole query. -/
theorem afterDot_length :
    ∀ (s r : List Char), afterDot s = some r → r.length < s.length
  | [], _ => by simp [afterDot]
  | c :: rest, r => by
    simp only [afterDot]
    split
    · intro h
      injection h with h
      subst h
      exact Nat.lt_succ_self _
    · intro h
      exact Nat.lt_succ_of_lt (afterDot_length rest r h)

/-- The dot-separated segments of a query: the text before the first `'.'`,
then the segments of what follows it.  The last entry is the match text of
the final enumeration; every earlier entry is a traversal step. -/
def splitDots (s : List Char) : List Name :=
  match h : afterDot s with
  | none => [s.takeWhile notDot]
  | some rest => s.takeWhile notDot :: splitDots rest
termination_by s.length
decreasing_by
  exact afterDot_length s rest h

/-- The query arguments of every call `autocompleteSubstep` performs on a
query: the query itself and, recursively, the suffix past its first dot
(the argument of the calls at lines 606 and 616). -/
def callStrings (s : List Char) : List (List Char) :=
  match h : afterDot s with
  | none => [s]
  | some rest => s :: callStrings rest
termination_by s.length
decreasing_by
  exact afterDot_length s rest h

/-- Every index of the 128-byte buffer `item` written over the whole
recursion: each call copies its segment's bytes to indices `0..len-1` and
the terminating NUL to index `len` (lines 585-594). -/
def itemWrites (str : List Char) : List Nat :=
  (callStrings str).flatMap fun s => List.range ((s.takeWhile notDot).length + 1)

/-- The last element of a nonempty segment list ([] for an empty one). -/
def lastOf : List Name → Name
  | [] => []
  | [s] => s
  | _ :: s :: rest => lastOf (s :: rest)

/-- The trailing segment of a query: the text after its last `'.'` (the
whole query when it has no dot). -/
def lastSeg (s : List Char) : Name := lastOf (splitDots s)

/-- `autocompleteSubstep` reorganised over the pre-split segment list: one
enumeration per segment, descending on a `startsWith` match, collecting the
matching names of the final segment.  `autocompleteSubstep_eq_acSegs`
proves it equal to the source-shaped definition. -/
def acSegs (g : Graph) : List Name → Value → List Name
  | [], _ => []
  | [item], v =>
    (valueProps g v).flatMap fun p => if startsWith p.1 item then [p.1] else []
  | item :: seg :: rest, v =>
    (valueProps g v).flatMap fun p =>
      if startsWith p.1 item then acSegs g (seg :: rest) p.2 else []

/-- The namespace of the spec's worked examples, `{a: {b: 1, bc: 2}, x: 3}`:
node 0 is the global object, node 1 the object `a`. -/
def gSpec : Graph := fun id =>
  match id with
  | 0 => [("a".toList, Value.node 1), ("x".toList, Value.scalar 3)]
  | 1 => [("b".toList, Value.scalar 1), ("bc".toList, Value.scalar 2)]
  | _ => []

/-- A namespace `{ab: {c: 1}}` whose only top-level name `ab` is a strict
extension of the query segment `a`. -/
def gLong : Graph := fun id =>
  match id with
  | 0 => [("ab".toList, Value.node 1)]
  | 1 => [("c".toList, Value.scalar 1)]
  | _ => []

/-- A namespace `{zz: {b: 1}}`: no top-level property is named `z`, yet
`zz` begins with `z`. -/
def gZ : Graph := fun id =>
  match id with
  | 0 => [("zz".toList, Value.node 1)]
  | 1 => [("b".toList, Value.scalar 1)]
  | _ => []

/-- A namespace `{a: {b: 1}}` for the malformed-query examples. -/
def gDot : Graph := fun id =>
  match id with
  | 0 => [("a".toList, Value.node 1)]
  | 1 => [("b".toList, Value.scalar 1)]
  | _ => []

/-- A cyclic namespace: the object `a` (node 1) holds itself under the name
`self`, so `a.self === a`. -/
def gCycle : Graph := fun id =>
  match id with
  | 0 => [("a".toList, Value.node 1)]
  | 1 => [("self".toList, Value.node 1)]
  | _ => []

/-- Lumix `compareString` — C `strcmp` on the two names, byte by byte: the
first differing position decides, a string that runs out first is smaller. -/
def compareString : Name → Name → Int
  | [], [] => 0
  | [], _ :: _ => -1
  | _ :: _, [] => 1
  | a :: as, b :: bs =>
    if a.toNat < b.toNat then -1
    else if b.toNat < a.toNat then 1
    else compareString as bs

/-- The order the qsort comparator at lines 662-666 establishes: `a` sorts
at or before `b` when `compareString a b <= 0`. -/
def strLe (a b : Name) : Prop := compareString a b ≤ 0

instance : DecidableRel strLe :=
  fun a b => inferInstanceAs (Decidable (compareString a b ≤ 0))

/-- The completion path of ConsolePlugin::autocompleteCallback (lines
637-667): collect the candidates with `autocompleteSubstep` from the given
node, and when any were found sort them with qsort under the
`compareString` comparator.  The delivered list is modelled by a sort with
respect to `strLe`. -/
def autocompleteCallback (g : Graph) (str : List Char) (v : Value) : List Name :=
  let cands := autocompleteSubstep g str v
  if cands.isEmpty then cands else List.insertionSort strLe cands

/-- ConsolePlugin::isWordChar (lines 626-629). -/
def isWordChar (c : Char) : Bool :=
  (c ≥ 'a' && c ≤ 'z') || (c ≥ 'A' && c ≤ 'Z') || (c ≥ '0' && c ≤ '9') || c == '_'

/-- The character class of the completion scan's loop condition at line
643: word characters and the dot.  (The insert-path scan at line 673 uses
`isWordChar` alone; the scan model is stated over an arbitrary class.) -/
def isWordCharOrDot (c : Char) : Bool := isWordChar c || c == '.'

/-- The reads the backward scan loop performs (lines 643-647 and 673-677):
entered with `start_word = sw` and the character read at `sw - 1`, while
`sw > 0` and the character is in the class it decrements `start_word` and
reads `Buf[start_word - 1]` again.  Each list entry is the signed index of
one read. -/
def scanAux (p : Char → Bool) (buf : Int → Char) : Nat → Char → List Int
  | 0, _ => []
  | sw + 1, c =>
    if p c then ((sw : Int) - 1) :: scanAux p buf sw (buf ((sw : Int) - 1))
    else []

/-- All reads of the backward word-boundary scan, the unconditional first
read `c = data->Buf[start_word - 1]` at line 642 (line 672 on the insert
path) included: it happens before `start_word > 0` is ever tested. -/
def scanReads (p : Char → Bool) (buf : Int → Char) (cursor : Nat) : List Int :=
  ((cursor : Int) - 1) :: scanAux p buf cursor (buf ((cursor : Int) - 1))

/-- A console buffer holding a non-word blocking character (a space) at
index 0 and a word character everywhere else. -/
def bufBlocker : Int → Char := fun i => if i = 0 then ' ' else 'a'

/-- A prefix-matching traversal path: `Resolves g segs v cand` holds when,
starting at `v`, every segment of `segs` before the last matches some
property name beginning with it, descent follows those properties, and
`cand` is a property name of the final node that begins with the last
segment. -/
inductive Resolves (g : Graph) : List Name → Value → Name → Prop where
  | last {v : Value} {item name : Name} {val : Value} :
      (name, val) ∈ valueProps g v → startsWith name item = true →
      Resolves g [item] v name
  | step {v : Value} {item seg : Name} {rest : List Name} {name : Name}
      {val : Value} {cand : Name} :
      (name, val) ∈ valueProps g v → startsWith name item = true →
      Resolves g (seg :: rest) val cand →
      Resolves g (item :: seg :: rest) v cand


/-- The remainder the parse loop leaves: nothing when the query has no dot,
the dot and the suffix after it otherwise. -/
theorem dropWhile_eq_afterDot :
    ∀ s : List Char,
      s.dropWhile notDot = (match afterDot s with | none => [] | some r => '.' :: r)
  | [] => rfl
  | c :: rest => by
    by_cases hc : c = '.'
    · subst hc
      simp [afterDot, List.dropWhile_cons, notDot]
    · simp only [afterDot, List.dropWhile_cons, notDot, if_neg hc]
      rw [if_pos (by simpa using hc)]
      exact dropWhile_eq_afterDot rest

/-- Case equation of `splitDots` for a query without a dot. -/
theorem splitDots_none {s : List Char} (h : afterDot s = none) :
    splitDots s = [s.takeWhile notDot] := by
  rw [splitDots]
  split
  · rfl
  · rename_i r hr
    rw [h] at hr
    cases hr

/-- Case equation of `splitDots` for a query with a dot. -/
theorem splitDots_some {s r : List Char} (h : afterDot s = some r) :
    splitDots s = s.takeWhile notDot :: splitDots r := by
  rw [splitDots]
  split
  · rename_i hr
    rw [h] at hr
    cases hr
  · rename_i r' hr
    rw [h] at hr
    cases hr
    rfl

/-- Case equation of `callStrings` for a query without a dot. -/
theorem callStrings_none {s : List Char} (h : afterDot s = none) :
    callStrings s = [s] := by
  rw [callStrings]
  split
  · rfl
  · rename_i r hr
    rw [h] at hr
    cases hr

/-- Case equation of `callStrings` for a query with a dot. -/
theorem callStrings_some {s r : List Char} (h : afterDot s = some r) :
    callStrings s = s :: callStrings r := by
  rw [callStrings]
  split
  · rename_i hr
    rw [h] at hr
    cases hr
  · rename_i r' hr
    rw [h] at hr
    cases hr
    rfl

/-- A query always splits into at least one segment. -/
theorem splitDots_ne_nil (s : List Char) : splitDots s ≠ [] := by
  cases h : afterDot s with
  | none => rw [splitDots_none h]; simp
  | some r => rw [splitDots_some h]; simp

/-- `autocompleteSubstep` on a query without a dot: one enumeration,
keeping every name that begins with the query. -/
theorem acSub_noDot (g : Graph) (str : List Char) (v : Value)
    (h : str.dropWhile notDot = []) :
    autocompleteSubstep g str v =
      (valueProps g v).flatMap fun p =>
        if startsWith p.1 (str.takeWhile notDot) then [p.1] else [] := by
  rw [autocompleteSubstep]
  refine List.flatMap_congr fun p _ => ?_
  split
  · split
    · rfl
    · rename_i heq
      rw [h] at heq
      cases heq
  · rfl

/-- `autocompleteSubstep` on a query with a dot: one enumeration, and on
every name beginning with the first segment a recursive call on the suffix
past the dot.  The source's two recursive branches (lines 603-608 with the
empty string when the dot ends the query, lines 613-618 with `next + 1`
otherwise) receive the same argument, so they merge. -/
theorem acSub_dot (g : Graph) (str : List Char) (v : Value) (c0 : Char)
    (rest : List Char) (h : str.dropWhile notDot = c0 :: rest) :
    autocompleteSubstep g str v =
      (valueProps g v).flatMap fun p =>
        if startsWith p.1 (str.takeWhile notDot) then
          autocompleteSubstep g rest p.2
        else [] := by
  rw [autocompleteSubstep]
  refine List.flatMap_congr fun p _ => ?_
  split
  · split
    · rename_i heq
      rw [h] at heq
      cases heq
    · rename_i c1 rest1 heq
      rw [h] at heq
      cases heq
      by_cases hr : rest = []
      · subst hr
        simp
      · rw [if_neg hr]
  · rfl

/-- Folding the option-valued combination of `acSubFuel` over a property
list whose per-property results are all defined produces exactly the
concatenation `List.flatMap` builds. -/
theorem foldr_opt_eq {α β : Type} (f : α → Option (List β)) (fl : α → List β) :
    ∀ l : List α, (∀ p ∈ l, f p = some (fl p)) →
      l.foldr
        (fun p acc =>
          Option.bind (f p) fun this => Option.map (fun rest => this ++ rest) acc)
        (some []) = some (l.flatMap fl)
  | [], _ => by simp
  | p :: l, h => by
    simp only [List.foldr_cons, List.flatMap_cons]
    rw [foldr_opt_eq f fl l fun q hq => h q (List.mem_cons_of_mem _ hq),
      h p (List.mem_cons_self _ _)]
    rfl

/-- Any fuel beyond the query's length is enough: `acSubFuel` finishes and
agrees with `autocompleteSubstep`, whatever the graph — the recursion depth
is bounded by the query alone, so a cyclic namespace cannot make the
traversal run unboundedly. -/
theorem acSubFuel_sufficient (g : Graph) :
    ∀ (fuel : Nat) (str : List Char) (v : Value), str.length < fuel →
      acSubFuel g fuel str v = some (autocompleteSubstep g str v) := by
  intro fuel
  induction fuel with
  | zero => exact fun str v h => absurd h (Nat.not_lt_zero _)
  | succ n ih =>
    intro str v h
    simp only [acSubFuel]
    cases hd : str.dropWhile notDot with
    | nil =>
      rw [acSub_noDot g str v hd]
      refine foldr_opt_eq _ _ _ fun p _ => ?_
      split
      · simp
      · simp
    | cons c0 rest =>
      have hlen : rest.length + 1 ≤ str.length := by
        have h1 := length_dropWhile_le notDot str
        rw [hd] at h1
        simpa using h1
      rw [acSub_dot g str v c0 rest hd]
      refine foldr_opt_eq _ _ _ fun p _ => ?_
      split
      · rw [if_neg (List.cons_ne_nil c0 rest)]
        simp only [List.tail_cons]
        by_cases hr : rest = []
        · subst hr
          rw [if_pos rfl, ih [] p.2 (by omega)]
        · rw [if_neg hr, ih rest p.2 (by omega)]
      · rfl

/-- Concrete evaluation bridge: a run of the fueled traversal computes the
value of `autocompleteSubstep`. -/
theorem acSub_eval {g : Graph} {str : List Char} {v : Value} {r : List Name}
    (h : acSubFuel g (str.length + 1) str v = some r) :
    autocompleteSubstep g str v = r := by
  have h2 := acSubFuel_sufficient g (str.length + 1) str v (Nat.lt_succ_self _)
  rw [h] at h2
  exact (Option.some.inj h2).symm

/-- Bounded form of the equivalence between the source-shaped traversal and
its pre-split restatement. -/
theorem acSub_eq_acSegs_bounded (g : Graph) :
    ∀ (n : Nat) (str : List Char), str.length ≤ n → ∀ v : Value,
      autocompleteSubstep g str v = acSegs g (splitDots str) v := by
  intro n
  induction n with
  | zero =>
    intro str hlen v
    have hstr : str = [] := List.length_eq_zero.mp (Nat.le_zero.mp hlen)
    subst hstr
    rw [acSub_noDot g [] v rfl, splitDots_none (show afterDot [] = none from rfl)]
    rfl
  | succ n ih =>
    intro str hlen v
    cases hA : afterDot str with
    | none =>
      have hd : str.dropWhile notDot = [] := by
        rw [dropWhile_eq_afterDot str, hA]
      rw [acSub_noDot g str v hd, splitDots_none hA]
      rfl
    | some rest =>
      have hd : str.dropWhile notDot = '.' :: rest := by
        rw [dropWhile_eq_afterDot str, hA]
      have hr : rest.length ≤ n := by
        have := afterDot_length str rest hA
        omega
      rw [acSub_dot g str v '.' rest hd, splitDots_some hA]
      obtain ⟨s0, ss, hss⟩ : ∃ s0 ss, splitDots rest = s0 :: ss := by
        cases hsd : splitDots rest with
        | nil => exact absurd hsd (splitDots_ne_nil rest)
        | cons s0 ss => exact ⟨s0, ss, rfl⟩
      rw [hss]
      simp only [acSegs]
      refine List.flatMap_congr fun p _ => ?_
      split
      · rw [ih rest hr p.2, hss]
      · rfl

/-- `autocompleteSubstep` equals the segment-wise traversal of the
dot-split query: the incremental parse of the source and the pre-split
walk produce the same candidates. -/
theorem autocompleteSubstep_eq_acSegs (g : Graph) (str : List Char) (v : Value) :
    autocompleteSubstep g str v = acSegs g (splitDots str) v :=
  acSub_eq_acSegs_bounded g str.length str (Nat.le_refl _) v

/-- Every candidate of the segment-wise traversal is reached along a path
whose every step is a begins-with match. -/
theorem acSegs_sound (g : Graph) :
    ∀ (segs : List Name) (v : Value) (cand : Name),
      cand ∈ acSegs g segs v → Resolves g segs v cand := by
  intro segs
  induction segs with
  | nil => intro v cand h; cases h
  | cons item rest ih =>
    cases rest with
    | nil =>
      intro v cand h
      simp only [acSegs, List.mem_flatMap] at h
      obtain ⟨⟨name, val⟩, hp, hc⟩ := h
      by_cases hs : startsWith name item
      · rw [if_pos hs] at hc
        rw [List.mem_singleton.mp hc]
        exact Resolves.last hp hs
      · rw [if_neg hs] at hc
        cases hc
    | cons s0 ss =>
      intro v cand h
      simp only [acSegs, List.mem_flatMap] at h
      obtain ⟨⟨name, val⟩, hp, hc⟩ := h
      by_cases hs : startsWith name item
      · rw [if_pos hs] at hc
        exact Resolves.step hp hs (ih val cand hc)
      · rw [if_neg hs] at hc
        cases hc

/-- When no property name of the current node begins with the query's first
segment, the segment-wise traversal yields nothing. -/
theorem acSegs_head_miss (g : Graph) (item : Name) (rest : List Name)
    (v : Value) (h : ∀ p ∈ valueProps g v, startsWith p.1 item = false) :
    acSegs g (item :: rest) v = [] := by
  cases rest with
  | nil =>
    simp only [acSegs, List.flatMap_eq_nil_iff]
    intro p hp
    rw [h p hp]
    rfl
  | cons s0 ss =>
    simp only [acSegs, List.flatMap_eq_nil_iff]
    intro p hp
    rw [h p hp]
    rfl

/-- Every candidate of the segment-wise traversal begins with the final
segment. -/
theorem acSegs_trailing (g : Graph) :
    ∀ (segs : List Name) (v : Value) (cand : Name),
      cand ∈ acSegs g segs v → startsWith cand (lastOf segs) = true := by
  intro segs
  induction segs with
  | nil => intro v cand h; cases h
  | cons item rest ih =>
    cases rest with
    | nil =>
      intro v cand h
      simp only [acSegs, List.mem_flatMap] at h
      obtain ⟨⟨name, val⟩, _, hc⟩ := h
      by_cases hs : startsWith name item
      · rw [if_pos hs] at hc
        rw [List.mem_singleton.mp hc]
        exact hs
      · rw [if_neg hs] at hc
        cases hc
    | cons s0 ss =>
      intro v cand h
      simp only [acSegs, List.mem_flatMap] at h
      obtain ⟨⟨name, val⟩, _, hc⟩ := h
      by_cases hs : startsWith name item
      · rw [if_pos hs] at hc
        exact ih val cand hc
      · rw [if_neg hs] at hc
        cases hc

/-- The segments of a query are exactly the initial segments of the queries
of its recursive calls: each call copies into `item` the text of its own
argument up to the first dot. -/
theorem splitDots_eq_map_callStrings :
    ∀ s : List Char,
      splitDots s = (callStrings s).map fun t => t.takeWhile notDot := by
  have aux : ∀ (n : Nat) (s : List Char), s.length ≤ n →
      splitDots s = (callStrings s).map fun t => t.takeWhile notDot := by
    intro n
    induction n with
    | zero =>
      intro s hlen
      have hs : s = [] := List.length_eq_zero.mp (Nat.le_zero.mp hlen)
      subst hs
      rw [splitDots_none (show afterDot [] = none from rfl), callStrings_none (show afterDot [] = none from rfl)]
      rfl
    | succ n ih =>
      intro s hlen
      cases hA : afterDot s with
      | none => rw [splitDots_none hA, callStrings_none hA]; rfl
      | some rest =>
        have hr : rest.length ≤ n := by
          have := afterDot_length s rest hA
          omega
        rw [splitDots_some hA, callStrings_some hA, List.map_cons, ih rest hr]
  exact fun s => aux s.length s (Nat.le_refl _)

/-- The empty string compares at or below everything. -/
theorem compareString_nil_left : ∀ b : Name, compareString [] b ≤ 0 := by
  intro b
  cases b <;> simp only [compareString] <;> omega

/-- `strcmp` is antisymmetric in sign. -/
theorem compareString_swap : ∀ a b : Name, compareString a b = -compareString b a := by
  intro a
  induction a with
  | nil => intro b; cases b <;> simp only [compareString] <;> omega
  | cons x xs ih =>
    intro b
    cases b with
    | nil => simp only [compareString]; omega
    | cons y ys =>
      simp only [compareString]
      split_ifs <;> first | omega | exact ih ys

/-- The at-most-zero side of `strcmp` is transitive. -/
theorem compareString_trans :
    ∀ a b c : Name, compareString a b ≤ 0 → compareString b c ≤ 0 →
      compareString a c ≤ 0 := by
  intro a
  induction a with
  | nil => exact fun b c _ _ => compareString_nil_left c
  | cons x xs ih =>
    intro b c h1 h2
    cases b with
    | nil =>
      rw [show compareString (x :: xs) [] = 1 from rfl] at h1
      omega
    | cons y ys =>
      cases c with
      | nil =>
        rw [show compareString (y :: ys) [] = 1 from rfl] at h2
        omega
      | cons z zs =>
        simp only [compareString] at h1 h2 ⊢
        split_ifs at h1 h2 ⊢ <;> first | omega | exact ih ys zs h1 h2

instance : IsTotal Name strLe where
  total a b := by
    have h := compareString_swap a b
    unfold strLe
    omega

instance : IsTrans Name strLe where
  trans a b c := compareString_trans a b c

/-- While some position below `start_word` holds a character outside the
class, the loop stops before walking off the front: every read lands in
`[0, sw)`. -/
theorem scanAux_bounds (p : Char → Bool) (buf : Int → Char) :
    ∀ sw : Nat, (∃ j : Nat, j < sw ∧ p (buf (j : Int)) = false) →
      ∀ idx ∈ scanAux p buf sw (buf ((sw : Int) - 1)),
        0 ≤ idx ∧ idx < (sw : Int) := by
  intro sw
  induction sw with
  | zero => intro _ idx h; cases h
  | succ m ih =>
    intro hex idx hidx
    obtain ⟨j, hj, hpj⟩ := hex
    have hc : ((m + 1 : Nat) : Int) - 1 = (m : Int) := by push_cast; ring
    simp only [scanAux, hc] at hidx
    by_cases hp : p (buf (m : Int)) = true
    · rw [if_pos hp] at hidx
      have hjm : j ≠ m := by
        rintro rfl
        rw [hpj] at hp
        cases hp
      have hm1 : 1 ≤ m := by omega
      cases hidx with
      | head =>
        constructor <;> omega
      | tail _ htail =>
        have := ih ⟨j, by omega, hpj⟩ idx htail
        constructor
        · exact this.1
        · omega
    · rw [if_neg hp] at hidx
      cases hidx

/-- Collecting a one-element list per entry is a map. -/
theorem flatMap_singleton_map {α β : Type} (f : α → β) :
    ∀ l : List α, (l.flatMap fun x => [f x]) = l.map f
  | [] => rfl
  | x :: l => by
    simp only [List.flatMap_cons, List.map_cons, List.singleton_append]
    rw [flatMap_singleton_map f l]

/-- C1 (amended): every candidate the resolution produces arises along a
traversal path in which each segment of the query — the intermediate ones
included — is a begins-with match of (a prefix of, not necessarily equal
to) the property name followed at that step. -/
theorem claim_C1_amended (g : Graph) (str : List Char) (v : Value)
    (cand : Name) (h : cand ∈ autocompleteSubstep g str v) :
    Resolves g (splitDots str) v cand := by
  rw [autocompleteSubstep_eq_acSegs] at h
  exact acSegs_sound g (splitDots str) v cand h

/-- C1 witness: on the spec's namespace and query `"a.b"`, the candidate
`"b"` is produced and is reached along a begins-with matching path. -/
theorem claim_C1_witness :
    ("b".toList ∈ autocompleteSubstep gSpec ("a.b".toList) (Value.node 0)) ∧
      Resolves gSpec (splitDots ("a.b".toList)) (Value.node 0) "b".toList := by
  have hmem : "b".toList ∈ autocompleteSubstep gSpec ("a.b".toList) (Value.node 0) := by
    rw [acSub_eval (show acSubFuel gSpec (("a.b".toList).length + 1) ("a.b".toList)
      (Value.node 0) = some ["b".toList, "bc".toList] by decide)]
    decide
  exact ⟨hmem, claim_C1_amended gSpec ("a.b".toList) (Value.node 0) "b".toList hmem⟩

/-- C1 counterexample: on `{ab: {c: 1}}` the query `"a.c"` produces the
candidate `"c"`, although the intermediate segment `"a"` is exactly equal
to no property name of the node it traverses (the root's only name is
`"ab"`) — traversal is by begins-with match, not exact match. -/
theorem claim_C1_counterexample :
    autocompleteSubstep gLong ("a.c".toList) (Value.node 0) = ["c".toList] ∧
      ((valueProps gLong (Value.node 0)).all fun p => p.1 != "a".toList) = true :=
  ⟨acSub_eval (by decide), by decide⟩

/-- C2 (amended): when no property name of the starting node begins with
the query's first segment — in particular when the value is a scalar,
which enumerates no properties — resolution returns the empty candidate
list, silently (it is total, there is no error path). -/
theorem claim_C2_amended (g : Graph) (str : List Char) (v : Value)
    (h : ((valueProps g v).all fun p =>
      !(startsWith p.1 (str.takeWhile notDot))) = true) :
    autocompleteSubstep g str v = [] := by
  rw [autocompleteSubstep_eq_acSegs]
  have hh : ∀ p ∈ valueProps g v,
      startsWith p.1 (str.takeWhile notDot) = false := by
    intro p hp
    have := List.all_eq_true.mp h p hp
    simpa using this
  cases hA : afterDot str with
  | none =>
    rw [splitDots_none hA]
    exact acSegs_head_miss g _ [] v hh
  | some r =>
    rw [splitDots_some hA]
    exact acSegs_head_miss g _ _ v hh

/-- C2 witness: the spec's namespace has no top-level name beginning with
`"z"`, so the query `"z.b"` resolves to the empty list. -/
theorem claim_C2_witness :
    (((valueProps gSpec (Value.node 0)).all fun p =>
      !(startsWith p.1 (("z.b".toList).takeWhile notDot))) = true) ∧
      autocompleteSubstep gSpec ("z.b".toList) (Value.node 0) = [] :=
  ⟨by decide, claim_C2_amended gSpec ("z.b".toList) (Value.node 0) (by decide)⟩

/-- C2 counterexample: on `{zz: {b: 1}}` the query `"z.b"` names a missing
top-level property (`z` does not exist, only `zz`), yet the result is
`["b"]`, not the empty list: the segment `z` begins-with-matches `zz` and
traversal descends. -/
theorem claim_C2_counterexample :
    autocompleteSubstep gZ ("z.b".toList) (Value.node 0) = ["b".toList] ∧
      ((valueProps gZ (Value.node 0)).all fun p => p.1 != "z".toList) = true :=
  ⟨acSub_eval (by decide), by decide⟩

/-- C3: resolution terminates within a bounded number of steps on every
namespace graph, cyclic ones included — fuel exceeding the query's length
is never exhausted, on any graph; the graph `gCycle` contains the
self-reference `a.self === a` (node 1 holds itself under `self`), and the
query `"a.self.self.self.b"` completes within its length's worth of
steps. -/
theorem claim_C3_termination :
    (∀ (g : Graph) (fuel : Nat) (str : List Char) (v : Value),
        str.length < fuel →
        acSubFuel g fuel str v = some (autocompleteSubstep g str v)) ∧
      ("self".toList, Value.node 1) ∈ valueProps gCycle (Value.node 1) ∧
      acSubFuel gCycle (("a.self.self.self.b".toList).length + 1)
        ("a.self.self.self.b".toList) (Value.node 0) =
        some (autocompleteSubstep gCycle ("a.self.self.self.b".toList)
          (Value.node 0)) :=
  ⟨fun g fuel str v h => acSubFuel_sufficient g fuel str v h,
    by decide,
    acSubFuel_sufficient gCycle _ _ _ (Nat.lt_succ_self _)⟩

/-- C5: every returned candidate begins with the query's trailing segment
(the text after the last dot), and a call on the empty query — the form
every query with an empty trailing segment recurses to at its terminal
node — keeps every property name of that node. -/
theorem claim_C5_trailing :
    (∀ (g : Graph) (str : List Char) (v : Value) (cand : Name),
        cand ∈ autocompleteSubstep g str v →
        startsWith cand (lastSeg str) = true) ∧
      ∀ (g : Graph) (v : Value),
        autocompleteSubstep g [] v = (valueProps g v).map Prod.fst := by
  constructor
  · intro g str v cand h
    rw [autocompleteSubstep_eq_acSegs] at h
    exact acSegs_trailing g (splitDots str) v cand h
  · intro g v
    rw [acSub_noDot g [] v rfl]
    simp only [List.takeWhile_nil, startsWith, List.isPrefixOf, if_true]
    exact flatMap_singleton_map Prod.fst (valueProps g v)

/-- C6: the candidate list the callback delivers is sorted ascending under
the byte-wise string order of the qsort comparator. -/
theorem claim_C6_sorted (g : Graph) (str : List Char) (v : Value) :
    List.Sorted strLe (autocompleteCallback g str v) := by
  have h : autocompleteCallback g str v =
      if (autocompleteSubstep g str v).isEmpty then autocompleteSubstep g str v
      else List.insertionSort strLe (autocompleteSubstep g str v) := rfl
  rw [h]
  split
  · rename_i hE
    rw [List.isEmpty_iff.mp hE]
    exact List.sorted_nil
  · exact List.sorted_insertionSort strLe _

/-- C7 (amended): a malformed query is not rejected and need not resolve
to the empty list: an empty segment (a leading dot, or two consecutive
dots at any depth through this equation's recursion) is a text every
property name begins with, so resolution descends into every child of the
node and continues with the remainder; resolution is total, so no error is
reported for any query. -/
theorem claim_C7_empty_segment (g : Graph) (rest : List Char) (v : Value) :
    autocompleteSubstep g ('.' :: rest) v =
      (valueProps g v).flatMap fun p => autocompleteSubstep g rest p.2 := by
  have hd : ('.' :: rest).dropWhile notDot = '.' :: rest := by
    simp [List.dropWhile_cons, notDot]
  rw [acSub_dot g _ v '.' rest hd]
  refine List.flatMap_congr fun p _ => ?_
  have ht : ('.' :: rest).takeWhile notDot = [] := by
    simp [List.takeWhile_cons, notDot]
  rw [ht]
  simp [startsWith, List.isPrefixOf]

/-- C7 witness: on `{a: {b: 1}}` the malformed query `".b"` (leading dot)
resolves to `["b"]` — every top-level child is entered — and in
particular not to the empty list. -/
theorem claim_C7_witness :
    autocompleteSubstep gDot (".b".toList) (Value.node 0) =
      (valueProps gDot (Value.node 0)).flatMap
        (fun p => autocompleteSubstep gDot ("b".toList) p.2) :=
  claim_C7_empty_segment gDot ("b".toList) (Value.node 0)

/-- C7 counterexample: the malformed query `".b"` (leading dot) on
`{a: {b: 1}}` resolves to `["b"]`, not to the empty candidate list the
claim requires. -/
theorem claim_C7_counterexample :
    autocompleteSubstep gDot (".b".toList) (Value.node 0) = ["b".toList] ∧
      (["b".toList] : List Name) ≠ [] :=
  ⟨acSub_eval (by decide), by decide⟩

/-- C8: on the namespace `{a: {b: 1, bc: 2}, x: 3}` the query `"a.b"`
resolves to exactly `["b", "bc"]`, and the query `"a."` (empty trailing
text) resolves to the same list. -/
theorem claim_C8_examples :
    autocompleteSubstep gSpec ("a.b".toList) (Value.node 0) =
        ["b".toList, "bc".toList] ∧
      autocompleteSubstep gSpec ("a.".toList) (Value.node 0) =
        ["b".toList, "bc".toList] :=
  ⟨acSub_eval (by decide), acSub_eval (by decide)⟩

/-- C9: the copies into the 128-byte buffer `item` all stay in bounds
exactly when every dot-separated segment of the query is strictly shorter
than 128 bytes: each call of the recursion writes its segment's bytes and
a terminating NUL at the index equal to the segment's length, with no
length check. -/
theorem claim_C9_bounds (str : List Char) :
    ((itemWrites str).all fun i => i < 128) =
      ((splitDots str).all fun seg => seg.length < 128) := by
  rw [Bool.eq_iff_iff]
  simp only [List.all_eq_true, decide_eq_true_eq, itemWrites,
    splitDots_eq_map_callStrings, List.mem_flatMap, List.mem_range,
    List.mem_map]
  constructor
  · rintro h seg ⟨t, ht, rfl⟩
    have := h (t.takeWhile notDot).length ⟨t, ht, Nat.lt_succ_self _⟩
    omega
  · rintro h i ⟨t, ht, hi⟩
    have := h (t.takeWhile notDot) ⟨t, ht, rfl⟩
    omega

/-- C10 (amended): the backward word-boundary scan reads only indices in
`[0, CursorPos)` under the precondition that the cursor position is
strictly positive AND some index below the cursor holds a character
outside the scanned class; without the second condition the loop walks
past the front and reads index `-1` (see the counterexample), and with a
zero cursor the unconditional first read is itself at index `-1`. -/
theorem claim_C10_amended (p : Char → Bool) (buf : Int → Char)
    (cursor : Nat) (hc : 0 < cursor)
    (hex : ((List.range cursor).any fun j => !(p (buf (j : Int)))) = true) :
    ∀ idx ∈ scanReads p buf cursor, 0 ≤ idx ∧ idx < (cursor : Int) := by
  intro idx hidx
  cases hidx with
  | head => constructor <;> omega
  | tail _ htail =>
    obtain ⟨j, hjm, hjp⟩ := List.any_eq_true.mp hex
    refine scanAux_bounds p buf cursor
      ⟨j, List.mem_range.mp hjm, by simpa using hjp⟩ idx htail

/-- C10 witness: in a two-byte buffer holding a space then a word
character, with the cursor at 2, the read at index 1 (among the scan's
reads) is within `[0, 2)`. -/
theorem claim_C10_witness :
    0 < 2 ∧
      (((List.range 2).any fun j => !(isWordCharOrDot (bufBlocker (j : Int)))) = true) ∧
      (0 ≤ (1 : Int) ∧ (1 : Int) < ((2 : Nat) : Int)) :=
  ⟨by decide, by decide,
    claim_C10_amended isWordCharOrDot bufBlocker 2 (by decide) (by decide)
      1 (by decide)⟩

/-- C10 counterexample: with the cursor at position 1 and a buffer whose
byte 0 is a word character, the scan reads index 0 and then index `-1` —
an access before the start of the buffer although the cursor position is
strictly greater than 0. -/
theorem claim_C10_counterexample :
    0 < 1 ∧
      scanReads isWordCharOrDot (fun _ => 'a') 1 = [0, -1] ∧
      ¬(0 ≤ (-1 : Int)) :=
  ⟨by decide, by decide, by decide⟩
